import Mathlib

/-!
Verification of the two regex-patching utilities in this repository
(`fix_note.py` and `fix_repo.py`).

Both scripts apply a single `re.sub` (with `re.DOTALL`) to the text of a
target file:

* NoteFixer pattern (fix_note.py):
  `(Note \{[^}]*note_type,\s*)(created_at: row\.get\("created_at"\),)`
  replacement: group1 ++ "project_ids: vec![], // Empty by default -
  relationships managed separately\n" ++ 20 spaces ++ group2.

* RepoFixer pattern (fix_repo.py):
  `(Repo \{[^}]*tags: [^,\n]*,?\s*)(created_at: [^,\n]*,)`
  replacement: group1 ++ the same comment line ++ 8 spaces ++ group2.

The embedding below implements Python `re` semantics for these two concrete
patterns on `List Char`: leftmost match position, greedy quantifiers with
backtracking (longest alternative first), and the `re.sub` scan that resumes
right after each replaced match.  Notes on faithfulness:

* `[^}]`, `[^,\n]` and the literals are translated directly.  `re.DOTALL`
  has no effect on either pattern since neither contains `.`; the character
  classes already match newlines.
* `\s*` immediately followed by a literal starting with a non-whitespace
  character (`created_at: `, here) never needs backtracking: shortening the
  greedy whitespace run leaves the literal positioned at a whitespace
  character, which cannot match.  It is therefore translated as
  `takeWhile isPySpace`.
* `[^,\n]*` immediately followed by the literal `,` likewise never needs
  backtracking: the maximal run stops at the first `,`/`\n`/end, and any
  shorter run leaves `,` positioned at a non-comma character.  It is
  translated as `takeWhile notCommaNL` followed by a comma check.
* The remaining greedy quantifiers (`[^}]*` before `note_type,`/`tags: `,
  and `[^,\n]*` before `,?\s*created_at: `) do need backtracking and are
  implemented by `greedyBt`, which tries the longest consumption first and
  retreats one character at a time, exactly as a backtracking engine does.
* `\s` is modelled as the ASCII whitespace class `[ \t\n\r\v\f]` (Python's
  `\s` additionally matches some rare non-ASCII whitespace code points;
  none of the texts involved here contain them).
-/

set_option maxRecDepth 10000

/-- Whitespace class used for `\s` (ASCII part of the Python class `\s`). -/
def isPySpace (c : Char) : Bool :=
  c == ' ' || c == '\t' || c == '\n' || c == '\r' || c == '\x0b' || c == '\x0c'

/-- Character class `[^}]`. -/
def notBrace (c : Char) : Bool := !(c == '\x7d')

/-- Character class `[^,\n]`. -/
def notCommaNL (c : Char) : Bool := !(c == ',' || c == '\n')

/-- Strip an expected literal from the front of a string; `some rest` on
success, `none` if the literal is not a prefix. -/
def stripPfx : List Char → List Char → Option (List Char)
  | [], s => some s
  | _ :: _, [] => none
  | p :: ps, c :: cs => if p = c then stripPfx ps cs else none

/-- Boolean "is a prefix of" test, via `stripPfx`. -/
def pfxB (p s : List Char) : Bool := (stripPfx p s).isSome

/-- Literal `Note {` opening the NoteFixer pattern. -/
def noteOpen : List Char := "Note \x7b".data

/-- Literal `note_type,` token of the NoteFixer pattern. -/
def noteTok : List Char := "note_type,".data

/-- Literal second group of the NoteFixer pattern. -/
def creNoteLit : List Char := "created_at: row.get(\"created_at\"),".data

/-- Literal `Repo {` opening the RepoFixer pattern. -/
def repoOpen : List Char := "Repo \x7b".data

/-- Literal `tags: ` token of the RepoFixer pattern. -/
def tagsTok : List Char := "tags: ".data

/-- Literal `created_at: ` opening the second group of the RepoFixer pattern. -/
def creTok : List Char := "created_at: ".data

/-- The inserted comment line shared by the two replacement functions
(up to and including the `\n`). -/
def insComment : List Char :=
  "project_ids: vec![], // Empty by default - relationships managed separately\n".data

/-- Everything `replace_func` in fix_note.py inserts between group 1 and
group 2: the comment line plus 20 literal spaces of indentation. -/
def insNote : List Char := insComment ++ List.replicate 20 ' '

/-- Everything `replace_func` in fix_repo.py inserts between group 1 and
group 2: the comment line plus 8 literal spaces of indentation. -/
def insRepo : List Char := insComment ++ List.replicate 8 ' '

/-- Generic greedy backtracking for a starred character class followed by a
tail pattern `f`: `aRev` is the (reversed) portion of the maximal class run
still consumed by the star, `b` the portion already given back, `r` the text
after the maximal run.  The longest consumption is tried first; on failure
one character is given back, exactly the order a backtracking regex engine
explores. Returns the consumed run and the result of the tail. -/
def greedyBt {α : Type} (f : List Char → Option α) :
    List Char → List Char → List Char → Option (List Char × α)
  | aRev, b, r =>
    match f (b ++ r) with
    | some x => some (aRev.reverse, x)
    | none =>
      match aRev with
      | [] => none
      | c :: aRev' => greedyBt f aRev' (c :: b) r

/-- Tail of the NoteFixer pattern after `[^}]*`: the literal `note_type,`,
then `\s*`, then the literal second group. Returns the whitespace run and
the text after the whole match. -/
def noteTail (u : List Char) : Option (List Char × List Char) :=
  match stripPfx noteTok u with
  | none => none
  | some u₁ =>
    match stripPfx creNoteLit (u₁.dropWhile isPySpace) with
    | none => none
    | some rest => some (u₁.takeWhile isPySpace, rest)

/-- Attempt at matching the NoteFixer pattern exactly at the start of `s`.
On success returns `(group1, group2, rest)`. -/
def matchNoteAt (s : List Char) : Option (List Char × List Char × List Char) :=
  match stripPfx noteOpen s with
  | none => none
  | some s' =>
    match greedyBt noteTail (s'.takeWhile notBrace).reverse [] (s'.dropWhile notBrace) with
    | none => none
    | some (body, ws, rest) => some (noteOpen ++ body ++ noteTok ++ ws, creNoteLit, rest)

/-- Tail of the RepoFixer pattern after `tags: [^,\n]*`: the optional comma
(`copt`), then `\s*` (`ws`), then `created_at: [^,\n]*,`.  Returns
`(copt, ws, v2, rest)` where `v2` is the `[^,\n]*` run of group 2. -/
def finishCre (copt w : List Char) : Option (List Char × List Char × List Char × List Char) :=
  match stripPfx creTok (w.dropWhile isPySpace) with
  | none => none
  | some w₃ =>
    match w₃.dropWhile notCommaNL with
    | ',' :: w₄ => some (copt, w.takeWhile isPySpace, w₃.takeWhile notCommaNL, w₄)
    | _ => none

/-- The `,?\s*created_at: [^,\n]*,` part: greedy `,?` first tries to consume
a comma, and falls back to consuming nothing. -/
def afterV1 (w : List Char) : Option (List Char × List Char × List Char × List Char) :=
  match w with
  | ',' :: w₁ =>
    match finishCre [','] w₁ with
    | some res => some res
    | none => finishCre [] w
  | _ => finishCre [] w

/-- Tail of the RepoFixer pattern after `[^}]*`: the literal `tags: `, then
the backtracking `[^,\n]*`, then `afterV1`.  Returns
`(v1, copt, ws, v2, rest)`. -/
def repoTail (u : List Char) :
    Option (List Char × List Char × List Char × List Char × List Char) :=
  match stripPfx tagsTok u with
  | none => none
  | some u₁ =>
    match greedyBt afterV1 (u₁.takeWhile notCommaNL).reverse [] (u₁.dropWhile notCommaNL) with
    | none => none
    | some (v1, copt, ws, v2, rest) => some (v1, copt, ws, v2, rest)

/-- Attempt at matching the RepoFixer pattern exactly at the start of `s`.
On success returns `(group1, group2, rest)`. -/
def matchRepoAt (s : List Char) : Option (List Char × List Char × List Char) :=
  match stripPfx repoOpen s with
  | none => none
  | some s' =>
    match greedyBt repoTail (s'.takeWhile notBrace).reverse [] (s'.dropWhile notBrace) with
    | none => none
    | some (body, v1, copt, ws, v2, rest) =>
      some (repoOpen ++ body ++ tagsTok ++ v1 ++ copt ++ ws, creTok ++ v2 ++ [','], rest)

/-- Leftmost-match search, as the `re` scanner does: try the matcher at every
position from the left; on success return `(prefixBeforeMatch, group1,
group2, rest)`. -/
def findAt (m : List Char → Option (List Char × List Char × List Char)) :
    List Char → Option (List Char × List Char × List Char × List Char)
  | [] =>
    match m [] with
    | some (g1, g2, r) => some ([], g1, g2, r)
    | none => none
  | c :: s' =>
    match m (c :: s') with
    | some (g1, g2, r) => some ([], g1, g2, r)
    | none => (findAt m s').map (fun x => (c :: x.1, x.2.1, x.2.2.1, x.2.2.2))

/-- Leftmost NoteFixer match. -/
def findNote : List Char → Option (List Char × List Char × List Char × List Char) :=
  findAt matchNoteAt

/-- Leftmost RepoFixer match. -/
def findRepo : List Char → Option (List Char × List Char × List Char × List Char) :=
  findAt matchRepoAt

/-! Basic lemmas about the string primitives. -/

theorem stripPfx_some : ∀ (p s r : List Char), stripPfx p s = some r → s = p ++ r := by
  intro p
  induction p with
  | nil => intro s r h; simp [stripPfx] at h; simp [h]
  | cons a p ih =>
    intro s r h
    cases s with
    | nil => simp [stripPfx] at h
    | cons c cs =>
      simp only [stripPfx] at h
      by_cases hac : a = c
      · subst hac
        simp only [if_pos rfl] at h
        simpa using ih cs r h
      · simp [hac] at h

theorem stripPfx_append : ∀ (p r : List Char), stripPfx p (p ++ r) = some r := by
  intro p
  induction p with
  | nil => intro r; simp [stripPfx]
  | cons a p ih => intro r; simp [stripPfx, ih]

theorem pfxB_iff (p s : List Char) : pfxB p s = true ↔ ∃ t, s = p ++ t := by
  constructor
  · intro h
    unfold pfxB at h
    cases hs : stripPfx p s with
    | none => rw [hs] at h; simp at h
    | some r => exact ⟨r, stripPfx_some p s r hs⟩
  · rintro ⟨t, rfl⟩
    unfold pfxB
    rw [stripPfx_append]
    rfl

theorem pfxB_self_append (p t : List Char) : pfxB p (p ++ t) = true :=
  (pfxB_iff p (p ++ t)).mpr ⟨t, rfl⟩

theorem pfxB_append_right {p s : List Char} (t : List Char) (h : pfxB p s = true) :
    pfxB p (s ++ t) = true := by
  rcases (pfxB_iff p s).mp h with ⟨u, rfl⟩
  exact (pfxB_iff p (p ++ u ++ t)).mpr ⟨u ++ t, by simp⟩

theorem pfxB_of_append {p s t : List Char} (h : pfxB p (s ++ t) = true)
    (hl : p.length ≤ s.length) : pfxB p s = true := by
  rcases (pfxB_iff p (s ++ t)).mp h with ⟨u, hu⟩
  rcases List.append_eq_append_iff.mp hu.symm with ⟨m, hm, _⟩ | ⟨m, hm, _⟩
  · exact (pfxB_iff p s).mpr ⟨m, hm⟩
  · have hml : m.length = 0 := by
      have := congrArg List.length hm
      simp at this
      omega
    rw [List.length_eq_zero] at hml
    subst hml
    rw [List.append_nil] at hm
    rw [hm]
    exact (pfxB_iff s s).mpr ⟨[], by simp⟩

theorem pfxB_split {p s t : List Char} (h : pfxB p (s ++ t) = true)
    (hl : s.length < p.length) : p = s ++ p.drop s.length ∧ pfxB (p.drop s.length) t = true := by
  rcases (pfxB_iff p (s ++ t)).mp h with ⟨u, hu⟩
  rcases List.append_eq_append_iff.mp hu.symm with ⟨m, hm, _⟩ | ⟨m, hm, hmt⟩
  · exfalso
    have := congrArg List.length hm
    simp at this
    omega
  · have hd : p.drop s.length = m := by rw [hm]; simp [List.drop_left]
    constructor
    · rw [hd, ← hm]
    · rw [hd]
      exact (pfxB_iff m t).mpr ⟨u, hmt⟩

theorem mem_takeWhile_pred (p : Char → Bool) :
    ∀ (l : List Char) (c : Char), c ∈ l.takeWhile p → p c = true := by
  intro l
  induction l with
  | nil => intro c hc; simp [List.takeWhile] at hc
  | cons a l ih =>
    intro c hc
    by_cases h : p a
    · rw [List.takeWhile_cons, if_pos h] at hc
      rcases List.mem_cons.mp hc with rfl | hc
      · exact h
      · exact ih c hc
    · rw [List.takeWhile_cons, if_neg h] at hc
      simp at hc

theorem takeWhile_append_all {p : Char → Bool} {l : List Char}
    (h : ∀ c ∈ l, p c = true) (m : List Char) :
    (l ++ m).takeWhile p = l ++ m.takeWhile p := by
  induction l with
  | nil => simp
  | cons a l ih =>
    have ha : p a = true := h a (List.mem_cons_self a l)
    simp only [List.cons_append, List.takeWhile_cons, if_pos ha]
    rw [ih (fun c hc => h c (List.mem_cons_of_mem a hc))]

theorem dropWhile_append_all {p : Char → Bool} {l : List Char}
    (h : ∀ c ∈ l, p c = true) (m : List Char) :
    (l ++ m).dropWhile p = m.dropWhile p := by
  induction l with
  | nil => simp
  | cons a l ih =>
    have ha : p a = true := h a (List.mem_cons_self a l)
    simp only [List.cons_append, List.dropWhile_cons, if_pos ha]
    exact ih (fun c hc => h c (List.mem_cons_of_mem a hc))

theorem dropWhile_cons_neg {p : Char → Bool} {c : Char} (l : List Char)
    (h : p c = false) : (c :: l).dropWhile p = c :: l := by
  simp [List.dropWhile_cons, h]

/-! Soundness and completeness of the greedy backtracking loop. -/

theorem greedyBt_sound {α : Type} (f : List Char → Option α) :
    ∀ (aRev b r a : List Char) (x : α), greedyBt f aRev b r = some (a, x) →
      ∃ b₁, aRev.reverse = a ++ b₁ ∧ f (b₁ ++ (b ++ r)) = some x := by
  intro aRev
  induction aRev with
  | nil =>
    intro b r a x h
    rw [greedyBt] at h
    cases hf : f (b ++ r) with
    | none => rw [hf] at h; exact absurd h (by simp)
    | some y =>
      rw [hf] at h
      simp only [List.reverse_nil, Option.some.injEq, Prod.mk.injEq] at h
      obtain ⟨rfl, rfl⟩ := h
      exact ⟨[], by simp, by simpa using hf⟩
  | cons c aRev ih =>
    intro b r a x h
    rw [greedyBt] at h
    cases hf : f (b ++ r) with
    | none =>
      rw [hf] at h
      rcases ih (c :: b) r a x h with ⟨b₁, hb₁, hfb⟩
      refine ⟨b₁ ++ [c], ?_, ?_⟩
      · simp [hb₁, List.append_assoc]
      · simpa [List.append_assoc] using hfb
    | some y =>
      rw [hf] at h
      simp only [Option.some.injEq, Prod.mk.injEq] at h
      obtain ⟨rfl, rfl⟩ := h
      exact ⟨[], by simp, by simpa using hf⟩

theorem greedyBt_none {α : Type} (f : List Char → Option α) :
    ∀ (aRev b r : List Char), greedyBt f aRev b r = none →
      ∀ x y, aRev.reverse = x ++ y → f (y ++ (b ++ r)) = none := by
  intro aRev
  induction aRev with
  | nil =>
    intro b r h x y hxy
    rw [greedyBt] at h
    cases hf : f (b ++ r) with
    | some _ => rw [hf] at h; exact absurd h (by simp)
    | none =>
      have hy : y = [] := by
        have := congrArg List.length hxy
        simp at this
        exact List.length_eq_zero.mp (by omega)
      subst hy
      simpa using hf
  | cons c aRev ih =>
    intro b r h x y hxy
    rw [greedyBt] at h
    cases hf : f (b ++ r) with
    | some _ => rw [hf] at h; exact absurd h (by simp)
    | none =>
      rw [hf] at h
      rcases List.eq_nil_or_concat y with rfl | ⟨y₁, d, rfl⟩
      · simpa using hf
      · have hxy' : aRev.reverse ++ [c] = (x ++ y₁) ++ [d] := by
          simpa [List.append_assoc] using hxy
        have hlen : aRev.reverse.length = (x ++ y₁).length := by
          have := congrArg List.length hxy'
          simp at this
          simp
          omega
        have h1 := List.append_inj hxy' hlen
        have hcd : c = d := by
          have := h1.2
          simpa using this
        subst hcd
        have := ih (c :: b) r h x y₁ h1.1
        simpa [List.append_assoc] using this

/-! Soundness of the pattern tails and the two matchers. -/

theorem noteTail_sound {u ws rest : List Char} (h : noteTail u = some (ws, rest)) :
    u = noteTok ++ (ws ++ (creNoteLit ++ rest)) ∧ ∀ c ∈ ws, isPySpace c = true := by
  unfold noteTail at h
  split at h
  · exact absurd h (by simp)
  · rename_i u₁ h₁
    split at h
    · exact absurd h (by simp)
    · rename_i rest' h₂
      simp only [Option.some.injEq, Prod.mk.injEq] at h
      obtain ⟨rfl, rfl⟩ := h
      refine ⟨?_, fun c hc => mem_takeWhile_pred isPySpace u₁ c hc⟩
      rw [stripPfx_some _ _ _ h₁]
      have hu : u₁ = List.takeWhile isPySpace u₁ ++ List.dropWhile isPySpace u₁ :=
        (List.takeWhile_append_dropWhile _ _).symm
      conv_lhs => rw [hu, stripPfx_some _ _ _ h₂]

theorem matchNoteAt_sound {s g1 g2 rest : List Char}
    (h : matchNoteAt s = some (g1, g2, rest)) :
    ∃ body ws, s = noteOpen ++ (body ++ (noteTok ++ (ws ++ (creNoteLit ++ rest)))) ∧
      g1 = noteOpen ++ body ++ noteTok ++ ws ∧ g2 = creNoteLit ∧
      (∀ c ∈ body, notBrace c = true) ∧ (∀ c ∈ ws, isPySpace c = true) := by
  unfold matchNoteAt at h
  split at h
  · exact absurd h (by simp)
  · rename_i s' h₁
    split at h
    · exact absurd h (by simp)
    · rename_i body ws₀ rest₀ h₂
      simp only [Option.some.injEq, Prod.mk.injEq] at h
      obtain ⟨rfl, rfl, rfl⟩ := h
      rcases greedyBt_sound noteTail _ _ _ _ _ h₂ with ⟨b₁, hb₁, htail⟩
      rw [List.reverse_reverse] at hb₁
      rw [List.nil_append] at htail
      rcases noteTail_sound htail with ⟨hdec, hws⟩
      refine ⟨body, ws₀, ?_, rfl, rfl, ?_, hws⟩
      · rw [stripPfx_some _ _ _ h₁]
        have hs : s' = List.takeWhile notBrace s' ++ List.dropWhile notBrace s' :=
          (List.takeWhile_append_dropWhile _ _).symm
        conv_lhs => rw [hs, hb₁, List.append_assoc, hdec]
      · intro c hc
        exact mem_takeWhile_pred notBrace s' c (hb₁ ▸ List.mem_append_left b₁ hc)

theorem finishCre_sound {copt w c' ws v2 rest : List Char}
    (h : finishCre copt w = some (c', ws, v2, rest)) :
    c' = copt ∧ w = ws ++ (creTok ++ (v2 ++ ([','] ++ rest))) ∧
      (∀ c ∈ ws, isPySpace c = true) ∧ (∀ c ∈ v2, notCommaNL c = true) := by
  unfold finishCre at h
  split at h
  · exact absurd h (by simp)
  · rename_i w₃ h₁
    split at h
    · rename_i w₄ h₂
      simp only [Option.some.injEq, Prod.mk.injEq] at h
      obtain ⟨rfl, rfl, rfl, rfl⟩ := h
      refine ⟨rfl, ?_, fun c hc => mem_takeWhile_pred isPySpace w c hc,
        fun c hc => mem_takeWhile_pred notCommaNL w₃ c hc⟩
      have hw : w = List.takeWhile isPySpace w ++ List.dropWhile isPySpace w :=
        (List.takeWhile_append_dropWhile _ _).symm
      have hw3 : w₃ = List.takeWhile notCommaNL w₃ ++ (',' :: w₄) := by
        conv_lhs => rw [← List.takeWhile_append_dropWhile notCommaNL w₃, h₂]
      conv_lhs => rw [hw, stripPfx_some _ _ _ h₁, hw3]
      simp
    · exact absurd h (by simp)

theorem afterV1_sound {w copt ws v2 rest : List Char}
    (h : afterV1 w = some (copt, ws, v2, rest)) :
    (copt = [] ∨ copt = [',']) ∧ w = copt ++ (ws ++ (creTok ++ (v2 ++ ([','] ++ rest)))) ∧
      (∀ c ∈ ws, isPySpace c = true) ∧ (∀ c ∈ v2, notCommaNL c = true) := by
  unfold afterV1 at h
  split at h
  · rename_i w₁
    split at h
    · rename_i res hc
      simp only [Option.some.injEq] at h
      rw [h] at hc
      rcases finishCre_sound hc with ⟨hcopt, hw₁, hws, hv2⟩
      subst hcopt
      exact ⟨Or.inr rfl, by rw [hw₁]; rfl, hws, hv2⟩
    · rename_i hc
      rcases finishCre_sound h with ⟨hcopt, hw, hws, hv2⟩
      subst hcopt
      exact ⟨Or.inl rfl, by rw [← hw]; rfl, hws, hv2⟩
  · rcases finishCre_sound h with ⟨hcopt, hw, hws, hv2⟩
    subst hcopt
    exact ⟨Or.inl rfl, by rw [← hw]; rfl, hws, hv2⟩

theorem repoTail_sound {u v1 copt ws v2 rest : List Char}
    (h : repoTail u = some (v1, copt, ws, v2, rest)) :
    u = tagsTok ++ (v1 ++ (copt ++ (ws ++ (creTok ++ (v2 ++ ([','] ++ rest)))))) ∧
      (∀ c ∈ v1, notCommaNL c = true) ∧ (copt = [] ∨ copt = [',']) ∧
      (∀ c ∈ ws, isPySpace c = true) ∧ (∀ c ∈ v2, notCommaNL c = true) := by
  unfold repoTail at h
  split at h
  · exact absurd h (by simp)
  · rename_i u₁ h₁
    split at h
    · exact absurd h (by simp)
    · rename_i q v1₀ copt₀ ws₀ v2₀ rest₀ h₂
      simp only [Option.some.injEq, Prod.mk.injEq] at h
      obtain ⟨rfl, rfl, rfl, rfl, rfl⟩ := h
      rcases greedyBt_sound afterV1 _ _ _ _ _ h₂ with ⟨b₁, hb₁, htail⟩
      rw [List.reverse_reverse] at hb₁
      rw [List.nil_append] at htail
      rcases afterV1_sound htail with ⟨hcopt, hdec, hws, hv2⟩
      refine ⟨?_, ?_, hcopt, hws, hv2⟩
      · rw [stripPfx_some _ _ _ h₁]
        have hu : u₁ = List.takeWhile notCommaNL u₁ ++ List.dropWhile notCommaNL u₁ :=
          (List.takeWhile_append_dropWhile _ _).symm
        conv_lhs => rw [hu, hb₁, List.append_assoc, hdec]
      · intro c hc
        exact mem_takeWhile_pred notCommaNL u₁ c (hb₁ ▸ List.mem_append_left b₁ hc)

theorem matchRepoAt_sound {s g1 g2 rest : List Char}
    (h : matchRepoAt s = some (g1, g2, rest)) :
    ∃ body v1 copt ws v2,
      s = repoOpen ++ (body ++ (tagsTok ++ (v1 ++ (copt ++ (ws ++ (creTok ++ (v2 ++ ([','] ++ rest)))))))) ∧
      g1 = repoOpen ++ body ++ tagsTok ++ v1 ++ copt ++ ws ∧ g2 = creTok ++ v2 ++ [','] ∧
      (∀ c ∈ body, notBrace c = true) ∧ (∀ c ∈ v1, notCommaNL c = true) ∧
      (copt = [] ∨ copt = [',']) ∧ (∀ c ∈ ws, isPySpace c = true) ∧
      (∀ c ∈ v2, notCommaNL c = true) := by
  unfold matchRepoAt at h
  split at h
  · exact absurd h (by simp)
  · rename_i s' h₁
    split at h
    · exact absurd h (by simp)
    · rename_i q body v1₀ copt₀ ws₀ v2₀ rest₀ h₂
      simp only [Option.some.injEq, Prod.mk.injEq] at h
      obtain ⟨rfl, rfl, rfl⟩ := h
      rcases greedyBt_sound repoTail _ _ _ _ _ h₂ with ⟨b₁, hb₁, htail⟩
      rw [List.reverse_reverse] at hb₁
      rw [List.nil_append] at htail
      rcases repoTail_sound htail with ⟨hdec, hv1, hcopt, hws, hv2⟩
      refine ⟨body, v1₀, copt₀, ws₀, v2₀, ?_, rfl, rfl, ?_, hv1, hcopt, hws, hv2⟩
      · rw [stripPfx_some _ _ _ h₁]
        have hs : s' = List.takeWhile notBrace s' ++ List.dropWhile notBrace s' :=
          (List.takeWhile_append_dropWhile _ _).symm
        conv_lhs => rw [hs, hb₁, List.append_assoc, hdec]
      · intro c hc
        exact mem_takeWhile_pred notBrace s' c (hb₁ ▸ List.mem_append_left b₁ hc)

/-! Soundness of the leftmost-position scan. -/

theorem findAt_sound (m : List Char → Option (List Char × List Char × List Char)) :
    ∀ (s p g1 g2 r : List Char), findAt m s = some (p, g1, g2, r) →
      ∃ s₁, s = p ++ s₁ ∧ m s₁ = some (g1, g2, r) := by
  intro s
  induction s with
  | nil =>
    intro p g1 g2 r h
    unfold findAt at h
    split at h
    · rename_i a b c hm
      simp only [Option.some.injEq, Prod.mk.injEq] at h
      obtain ⟨rfl, rfl, rfl, rfl⟩ := h
      exact ⟨[], rfl, hm⟩
    · exact absurd h (by simp)
  | cons c s' ih =>
    intro p g1 g2 r h
    unfold findAt at h
    split at h
    · rename_i a b d hm
      simp only [Option.some.injEq, Prod.mk.injEq] at h
      obtain ⟨rfl, rfl, rfl, rfl⟩ := h
      exact ⟨c :: s', rfl, hm⟩
    · rename_i hm
      rw [Option.map_eq_some'] at h
      rcases h with ⟨x, hx, hxe⟩
      obtain ⟨p₁, g1₁, g2₁, r₁⟩ := x
      rcases ih p₁ g1₁ g2₁ r₁ hx with ⟨s₁, hs₁, hms₁⟩
      simp only [Prod.mk.injEq] at hxe
      obtain ⟨rfl, rfl, rfl, rfl⟩ := hxe
      exact ⟨s₁, by rw [hs₁]; rfl, hms₁⟩

theorem findAt_of_match {m : List Char → Option (List Char × List Char × List Char)}
    {s g1 g2 r : List Char} (h : m s = some (g1, g2, r)) :
    findAt m s = some ([], g1, g2, r) := by
  cases s with
  | nil => unfold findAt; rw [h]
  | cons c s' => unfold findAt; rw [h]

/-- Full soundness of a NoteFixer match: the input decomposes around the
matched groups, with the anatomy the pattern dictates. -/
theorem findNote_sound {s p g1 g2 r : List Char} (h : findNote s = some (p, g1, g2, r)) :
    ∃ body ws, s = p ++ (noteOpen ++ (body ++ (noteTok ++ (ws ++ (creNoteLit ++ r))))) ∧
      g1 = noteOpen ++ body ++ noteTok ++ ws ∧ g2 = creNoteLit ∧
      (∀ c ∈ body, notBrace c = true) ∧ (∀ c ∈ ws, isPySpace c = true) := by
  rcases findAt_sound matchNoteAt s p g1 g2 r h with ⟨s₁, rfl, hm⟩
  rcases matchNoteAt_sound hm with ⟨body, ws, hdec, hg1, hg2, hbody, hws⟩
  exact ⟨body, ws, by rw [hdec], hg1, hg2, hbody, hws⟩

/-- Full soundness of a RepoFixer match. -/
theorem findRepo_sound {s p g1 g2 r : List Char} (h : findRepo s = some (p, g1, g2, r)) :
    ∃ body v1 copt ws v2,
      s = p ++ (repoOpen ++ (body ++ (tagsTok ++ (v1 ++ (copt ++ (ws ++ (creTok ++ (v2 ++ ([','] ++ r))))))))) ∧
      g1 = repoOpen ++ body ++ tagsTok ++ v1 ++ copt ++ ws ∧ g2 = creTok ++ v2 ++ [','] ∧
      (∀ c ∈ body, notBrace c = true) ∧ (∀ c ∈ v1, notCommaNL c = true) ∧
      (copt = [] ∨ copt = [',']) ∧ (∀ c ∈ ws, isPySpace c = true) ∧
      (∀ c ∈ v2, notCommaNL c = true) := by
  rcases findAt_sound matchRepoAt s p g1 g2 r h with ⟨s₁, rfl, hm⟩
  rcases matchRepoAt_sound hm with ⟨body, v1, copt, ws, v2, hdec, hg1, hg2, hx⟩
  exact ⟨body, v1, copt, ws, v2, by rw [hdec], hg1, hg2, hx⟩

/-! The substitution functions, modelling `re.sub`: find the leftmost match,
emit the prefix, group 1, the inserted text, group 2, and continue scanning
right after the match.  They are implemented with a fuel argument bounded by
the input length (each match consumes at least the 6-character opener, so
the fuel never runs out), which keeps them structurally recursive and hence
computable by kernel reduction. -/

theorem findNote_length {s p g1 g2 r : List Char}
    (h : findNote s = some (p, g1, g2, r)) : r.length < s.length := by
  rcases findNote_sound h with ⟨body, ws, hdec, _⟩
  rw [hdec]
  have h6 : 0 < noteOpen.length := by decide
  simp [List.length_append]
  omega

theorem findRepo_length {s p g1 g2 r : List Char}
    (h : findRepo s = some (p, g1, g2, r)) : r.length < s.length := by
  rcases findRepo_sound h with ⟨body, v1, copt, ws, v2, hdec, _⟩
  rw [hdec]
  have h6 : 0 < repoOpen.length := by decide
  simp [List.length_append]
  omega

/-- Fuel-bounded NoteFixer substitution. -/
def noteSubFuel : Nat → List Char → List Char
  | 0, s => s
  | n + 1, s =>
    match findNote s with
    | none => s
    | some (p, g1, g2, r) => p ++ g1 ++ insNote ++ g2 ++ noteSubFuel n r

/-- Fuel-bounded RepoFixer substitution. -/
def repoSubFuel : Nat → List Char → List Char
  | 0, s => s
  | n + 1, s =>
    match findRepo s with
    | none => s
    | some (p, g1, g2, r) => p ++ g1 ++ insRepo ++ g2 ++ repoSubFuel n r

theorem noteSubFuel_succ_none {n : Nat} {s : List Char} (h : findNote s = none) :
    noteSubFuel (n + 1) s = s := by
  conv_lhs => rw [noteSubFuel]
  rw [h]

theorem noteSubFuel_succ_some {n : Nat} {s p g1 g2 r : List Char}
    (h : findNote s = some (p, g1, g2, r)) :
    noteSubFuel (n + 1) s = p ++ g1 ++ insNote ++ g2 ++ noteSubFuel n r := by
  conv_lhs => rw [noteSubFuel]
  rw [h]

theorem repoSubFuel_succ_none {n : Nat} {s : List Char} (h : findRepo s = none) :
    repoSubFuel (n + 1) s = s := by
  conv_lhs => rw [repoSubFuel]
  rw [h]

theorem repoSubFuel_succ_some {n : Nat} {s p g1 g2 r : List Char}
    (h : findRepo s = some (p, g1, g2, r)) :
    repoSubFuel (n + 1) s = p ++ g1 ++ insRepo ++ g2 ++ repoSubFuel n r := by
  conv_lhs => rw [repoSubFuel]
  rw [h]

/-- The complete `re.sub` of fix_note.py: replace every match of the
NoteFixer pattern, inserting `insNote` between the two groups. -/
def noteSub (s : List Char) : List Char := noteSubFuel (s.length + 1) s

/-- The complete `re.sub` of fix_repo.py: replace every match of the
RepoFixer pattern, inserting `insRepo` between the two groups. -/
def repoSub (s : List Char) : List Char := repoSubFuel (s.length + 1) s

theorem noteSubFuel_congr :
    ∀ (n m : Nat) (s : List Char), s.length < n → s.length < m →
      noteSubFuel n s = noteSubFuel m s := by
  intro n
  induction n with
  | zero => intro m s hn; omega
  | succ n ih =>
    intro m s hn hm
    cases m with
    | zero => omega
    | succ m =>
      cases h : findNote s with
      | none => rw [noteSubFuel_succ_none h, noteSubFuel_succ_none h]
      | some q =>
        obtain ⟨p, g1, g2, r⟩ := q
        have hr : r.length < s.length := findNote_length h
        rw [noteSubFuel_succ_some (n := n) h, noteSubFuel_succ_some (n := m) h,
          ih m r (by omega) (by omega)]

theorem repoSubFuel_congr :
    ∀ (n m : Nat) (s : List Char), s.length < n → s.length < m →
      repoSubFuel n s = repoSubFuel m s := by
  intro n
  induction n with
  | zero => intro m s hn; omega
  | succ n ih =>
    intro m s hn hm
    cases m with
    | zero => omega
    | succ m =>
      cases h : findRepo s with
      | none => rw [repoSubFuel_succ_none h, repoSubFuel_succ_none h]
      | some q =>
        obtain ⟨p, g1, g2, r⟩ := q
        have hr : r.length < s.length := findRepo_length h
        rw [repoSubFuel_succ_some (n := n) h, repoSubFuel_succ_some (n := m) h,
          ih m r (by omega) (by omega)]

theorem noteSub_none {s : List Char} (h : findNote s = none) : noteSub s = s := by
  unfold noteSub
  exact noteSubFuel_succ_none h

theorem noteSub_some {s p g1 g2 r : List Char} (h : findNote s = some (p, g1, g2, r)) :
    noteSub s = p ++ g1 ++ insNote ++ g2 ++ noteSub r := by
  unfold noteSub
  have hr := findNote_length h
  rw [noteSubFuel_succ_some h, noteSubFuel_congr s.length (r.length + 1) r (by omega) (by omega)]

theorem repoSub_none {s : List Char} (h : findRepo s = none) : repoSub s = s := by
  unfold repoSub
  exact repoSubFuel_succ_none h

theorem repoSub_some {s p g1 g2 r : List Char} (h : findRepo s = some (p, g1, g2, r)) :
    repoSub s = p ++ g1 ++ insRepo ++ g2 ++ repoSub r := by
  unfold repoSub
  have hr := findRepo_length h
  rw [repoSubFuel_succ_some h, repoSubFuel_congr s.length (r.length + 1) r (by omega) (by omega)]

theorem length_le_noteSubFuel : ∀ (n : Nat) (s : List Char),
    s.length ≤ (noteSubFuel n s).length := by
  intro n
  induction n with
  | zero => intro s; simp [noteSubFuel]
  | succ n ih =>
    intro s
    simp only [noteSubFuel]
    cases h : findNote s with
    | none => simp
    | some q =>
      obtain ⟨p, g1, g2, r⟩ := q
      rcases findNote_sound h with ⟨body, ws, hdec, hg1, hg2, _⟩
      have := ih r
      rw [hdec, hg1, hg2]
      simp [List.length_append]
      omega

theorem length_le_repoSubFuel : ∀ (n : Nat) (s : List Char),
    s.length ≤ (repoSubFuel n s).length := by
  intro n
  induction n with
  | zero => intro s; simp [repoSubFuel]
  | succ n ih =>
    intro s
    simp only [repoSubFuel]
    cases h : findRepo s with
    | none => simp
    | some q =>
      obtain ⟨p, g1, g2, r⟩ := q
      rcases findRepo_sound h with ⟨body, v1, copt, ws, v2, hdec, hg1, hg2, _⟩
      have := ih r
      rw [hdec, hg1, hg2]
      simp [List.length_append]
      omega

/-- The NoteFixer substitution changes the text exactly when the pattern
matches: a match strictly lengthens the text by the inserted block. -/
theorem noteSub_eq_iff (s : List Char) : noteSub s = s ↔ findNote s = none := by
  constructor
  · intro he
    cases h : findNote s with
    | none => rfl
    | some q =>
      obtain ⟨p, g1, g2, r⟩ := q
      exfalso
      have hs := noteSub_some h
      have hlen := congrArg List.length (he.symm.trans hs)
      have hins : 0 < insNote.length := by decide
      have hr : r.length ≤ (noteSub r).length := length_le_noteSubFuel _ r
      rcases findNote_sound h with ⟨body, ws, hdec, hg1, hg2, _⟩
      have hslen := congrArg List.length hdec
      rw [hg1, hg2] at hlen
      simp [List.length_append] at hlen hslen
      omega
  · exact noteSub_none

/-- The RepoFixer substitution changes the text exactly when the pattern
matches. -/
theorem repoSub_eq_iff (s : List Char) : repoSub s = s ↔ findRepo s = none := by
  constructor
  · intro he
    cases h : findRepo s with
    | none => rfl
    | some q =>
      obtain ⟨p, g1, g2, r⟩ := q
      exfalso
      have hs := repoSub_some h
      have hlen := congrArg List.length (he.symm.trans hs)
      have hins : 0 < insRepo.length := by decide
      have hr : r.length ≤ (repoSub r).length := length_le_repoSubFuel _ r
      rcases findRepo_sound h with ⟨body, v1, copt, ws, v2, hdec, hg1, hg2, _⟩
      have hslen := congrArg List.length hdec
      rw [hg1, hg2] at hlen
      simp [List.length_append] at hlen hslen
      omega
  · exact repoSub_none

/-! Counting occurrences of a token in a text.  `occurs pat s` counts the
positions of `s` at which `pat` occurs (overlapping occurrences included).
This is used to state the corrected idempotence hypotheses and to reason
about where a token can sit inside a substituted output. -/

def occurs (pat : List Char) : List Char → Nat
  | [] => 0
  | c :: s => (if pfxB pat (c :: s) then 1 else 0) + occurs pat s

theorem occurs_head_one {pat s : List Char} (hp : pat ≠ []) (h : pfxB pat s = true) :
    1 ≤ occurs pat s := by
  cases s with
  | nil =>
    exfalso
    rcases (pfxB_iff _ _).mp h with ⟨t, ht⟩
    cases pat with
    | nil => exact hp rfl
    | cons a ps => simp at ht
  | cons c s' =>
    rw [occurs, h]
    simp

theorem occurs_cons_ge (pat : List Char) (c : Char) (s : List Char) :
    occurs pat s ≤ occurs pat (c :: s) := by
  rw [occurs]
  omega

theorem occurs_ge_one (pat : List Char) (hp : pat ≠ []) :
    ∀ (P Q : List Char), 1 ≤ occurs pat (P ++ (pat ++ Q)) := by
  intro P
  induction P with
  | nil =>
    intro Q
    rw [List.nil_append]
    exact occurs_head_one hp (pfxB_self_append pat Q)
  | cons c P ih =>
    intro Q
    rw [List.cons_append]
    exact le_trans (ih Q) (occurs_cons_ge pat c _)

theorem occurs_two (pat : List Char) (hp : pat ≠ []) :
    ∀ (P₁ Q₁ P₂ Q₂ : List Char), P₁.length < P₂.length →
      P₁ ++ (pat ++ Q₁) = P₂ ++ (pat ++ Q₂) → 2 ≤ occurs pat (P₁ ++ (pat ++ Q₁)) := by
  intro P₁
  induction P₁ with
  | nil =>
    intro Q₁ P₂ Q₂ hlen heq
    cases P₂ with
    | nil => simp at hlen
    | cons d P₂' =>
      cases pat with
      | nil => exact absurd rfl hp
      | cons a ps =>
        rw [List.nil_append] at heq ⊢
        rw [List.cons_append] at heq ⊢
        rw [List.cons_append] at heq
        have htl : ps ++ Q₁ = P₂' ++ ((a :: ps) ++ Q₂) := (List.cons_eq_cons.mp heq).2
        have h1 : 1 ≤ occurs (a :: ps) (ps ++ Q₁) := by
          have h2 := occurs_ge_one (a :: ps) hp P₂' Q₂
          rw [← htl] at h2
          exact h2
        have hpfx : pfxB (a :: ps) (a :: (ps ++ Q₁)) = true := by
          have h3 := pfxB_self_append (a :: ps) Q₁
          rwa [List.cons_append] at h3
        rw [occurs, hpfx]
        simp
        omega
  | cons c P₁' ih =>
    intro Q₁ P₂ Q₂ hlen heq
    cases P₂ with
    | nil => simp at hlen
    | cons d P₂' =>
      rw [List.cons_append] at heq ⊢
      rw [List.cons_append] at heq
      have htl : P₁' ++ (pat ++ Q₁) = P₂' ++ (pat ++ Q₂) := (List.cons_eq_cons.mp heq).2
      have h2 := ih Q₁ P₂' Q₂ (by simp at hlen; omega) htl
      exact le_trans h2 (occurs_cons_ge pat c _)

theorem occurs_append_ge (pat : List Char) :
    ∀ (x y : List Char), occurs pat x + occurs pat y ≤ occurs pat (x ++ y) := by
  intro x
  induction x with
  | nil => intro y; simp [occurs]
  | cons c x' ih =>
    intro y
    rw [List.cons_append, occurs, occurs]
    have hmono : (if pfxB pat (c :: x') then 1 else 0) ≤
        (if pfxB pat (c :: (x' ++ y)) then 1 else 0) := by
      by_cases h : pfxB pat (c :: x') = true
      · have h2 : pfxB pat ((c :: x') ++ y) = true := pfxB_append_right y h
        rw [List.cons_append] at h2
        simp [h, h2]
      · simp [h]
    have := ih y
    omega

theorem occurs_append_le (pat : List Char) (_hp : pat ≠ [])
    (y : List Char) (hy : ∀ k, 0 < k → k < pat.length → pfxB (pat.drop k) y = false) :
    ∀ x, occurs pat (x ++ y) ≤ occurs pat x + occurs pat y := by
  intro x
  induction x with
  | nil => simp [occurs]
  | cons c x' ih =>
    rw [List.cons_append, occurs, occurs]
    have hmono : (if pfxB pat (c :: (x' ++ y)) then 1 else 0) ≤
        (if pfxB pat (c :: x') then 1 else 0) := by
      by_cases h : pfxB pat (c :: (x' ++ y)) = true
      · by_cases hl : pat.length ≤ (c :: x').length
        · have h2 : pfxB pat (c :: x') = true := by
            refine pfxB_of_append (t := y) ?_ hl
            rwa [List.cons_append]
          simp [h, h2]
        · exfalso
          push_neg at hl
          have hh : pfxB pat ((c :: x') ++ y) = true := by rwa [List.cons_append]
          have hsplit := pfxB_split hh hl
          have hk := hy (c :: x').length (by simp) hl
          rw [hsplit.2] at hk
          exact Bool.noConfusion hk
      · simp [h]
    have := ih
    omega

/-! No-crossing facts: a token cannot straddle the boundary between the
matched text and the inserted block, nor the boundary into group 2. -/

theorem pfxB_false_append {p w z : List Char} (h : pfxB p w = false)
    (hl : p.length ≤ w.length) : pfxB p (w ++ z) = false := by
  rcases Bool.eq_false_or_eq_true (pfxB p (w ++ z)) with h1 | h0
  · exact absurd (pfxB_of_append h1 hl) (by simp [h])
  · exact h0

theorem noteTok_drop_insNote : ∀ k, k < noteTok.length → 0 < k →
    pfxB (List.drop k noteTok) insNote = false := by decide

theorem noteTok_drop_creNoteLit : ∀ k, k < noteTok.length → 0 < k →
    pfxB (List.drop k noteTok) creNoteLit = false := by decide

theorem noteTok_ne_nil : noteTok ≠ [] := by decide

theorem noteTok_nocross_ins (z : List Char) :
    ∀ k, 0 < k → k < noteTok.length → pfxB (List.drop k noteTok) (insNote ++ z) = false := by
  intro k hk hk'
  refine pfxB_false_append (noteTok_drop_insNote k hk' hk) ?_
  have h1 : (List.drop k noteTok).length ≤ noteTok.length := by
    rw [List.length_drop]; omega
  have h2 : noteTok.length ≤ insNote.length := by decide
  omega

theorem noteTok_nocross_cre (z : List Char) :
    ∀ k, 0 < k → k < noteTok.length → pfxB (List.drop k noteTok) (creNoteLit ++ z) = false := by
  intro k hk hk'
  refine pfxB_false_append (noteTok_drop_creNoteLit k hk' hk) ?_
  have h1 : (List.drop k noteTok).length ≤ noteTok.length := by
    rw [List.length_drop]; omega
  have h2 : noteTok.length ≤ creNoteLit.length := by decide
  omega

/-- Inserting `insNote` right after the matched `note_type,` and its
whitespace does not create or destroy occurrences of `note_type,`; hence if
the original text has at most one occurrence, so does the patched text. -/
theorem occurs_noteTok_out_le (A ws r : List Char) :
    occurs noteTok (A ++ noteTok ++ ws ++ (insNote ++ (creNoteLit ++ r))) ≤
      occurs noteTok (A ++ noteTok ++ ws ++ (creNoteLit ++ r)) := by
  have hle1 := occurs_append_le noteTok noteTok_ne_nil (insNote ++ (creNoteLit ++ r))
    (fun k hk hk' => noteTok_nocross_ins (creNoteLit ++ r) k hk hk')
    (A ++ noteTok ++ ws)
  have hle2 := occurs_append_le noteTok noteTok_ne_nil (creNoteLit ++ r)
    (fun k hk hk' => noteTok_nocross_cre r k hk hk') insNote
  have hz : occurs noteTok insNote = 0 := by decide
  have hge := occurs_append_ge noteTok (A ++ noteTok ++ ws) (creNoteLit ++ r)
  omega

/-- Core of the corrected NoteFixer idempotence: if the input had at most one
occurrence of the `note_type,` token, then the patched text, in which the
token is followed by the inserted block, has no match at all. -/
theorem noteOut_find_none (A ws r : List Char)
    (hws : ∀ c ∈ ws, isPySpace c = true)
    (hocc : occurs noteTok (A ++ (noteTok ++ (ws ++ (creNoteLit ++ r)))) ≤ 1) :
    findNote (A ++ (noteTok ++ (ws ++ (insNote ++ (creNoteLit ++ r))))) = none := by
  cases hf : findNote (A ++ (noteTok ++ (ws ++ (insNote ++ (creNoteLit ++ r))))) with
  | none => rfl
  | some q =>
    exfalso
    obtain ⟨p, g1, g2, r'⟩ := q
    rcases findNote_sound hf with ⟨body', ws', hdec, _hg1, _hg2, _hbody', hws'⟩
    have houtle : occurs noteTok (A ++ (noteTok ++ (ws ++ (insNote ++ (creNoteLit ++ r))))) ≤ 1 := by
      have h1 := occurs_noteTok_out_le A ws r
      have e1 : A ++ noteTok ++ ws ++ (insNote ++ (creNoteLit ++ r)) =
          A ++ (noteTok ++ (ws ++ (insNote ++ (creNoteLit ++ r)))) := by
        simp [List.append_assoc]
      have e2 : A ++ noteTok ++ ws ++ (creNoteLit ++ r) =
          A ++ (noteTok ++ (ws ++ (creNoteLit ++ r))) := by
        simp [List.append_assoc]
      rw [e1, e2] at h1
      omega
    have hD2 : A ++ (noteTok ++ (ws ++ (insNote ++ (creNoteLit ++ r)))) =
        (p ++ noteOpen ++ body') ++ (noteTok ++ (ws' ++ (creNoteLit ++ r'))) := by
      rw [hdec]
      simp [List.append_assoc]
    rcases lt_trichotomy A.length (p ++ noteOpen ++ body').length with hlt | heqL | hgt
    · have h2 := occurs_two noteTok noteTok_ne_nil A (ws ++ (insNote ++ (creNoteLit ++ r)))
        (p ++ noteOpen ++ body') (ws' ++ (creNoteLit ++ r')) hlt hD2
      omega
    · have hinj := List.append_inj hD2 heqL
      have hT := List.append_cancel_left hinj.2
      have hL : List.dropWhile isPySpace (ws ++ (insNote ++ (creNoteLit ++ r))) =
          insNote ++ (creNoteLit ++ r) := by
        rw [dropWhile_append_all hws]
        have hpc : insNote ++ (creNoteLit ++ r) = 'p' :: (insNote.tail ++ (creNoteLit ++ r)) := by
          rfl
        rw [hpc]
        exact dropWhile_cons_neg _ (by decide)
      have hR : List.dropWhile isPySpace (ws' ++ (creNoteLit ++ r')) = creNoteLit ++ r' := by
        rw [dropWhile_append_all hws']
        have hcc : creNoteLit ++ r' = 'c' :: (creNoteLit.tail ++ r') := by rfl
        rw [hcc]
        exact dropWhile_cons_neg _ (by decide)
      have hEq : insNote ++ (creNoteLit ++ r) = creNoteLit ++ r' := by
        rw [← hL, ← hR, hT]
      have hhead : 'p' = 'c' := by
        have h1 : insNote ++ (creNoteLit ++ r) = 'p' :: (insNote.tail ++ (creNoteLit ++ r)) := by
          rfl
        have h2 : creNoteLit ++ r' = 'c' :: (creNoteLit.tail ++ r') := by rfl
        rw [h1, h2] at hEq
        exact (List.cons_eq_cons.mp hEq).1
      exact absurd hhead (by decide)
    · have hD2' := hD2.symm
      have h2 := occurs_two noteTok noteTok_ne_nil (p ++ noteOpen ++ body')
        (ws' ++ (creNoteLit ++ r')) A (ws ++ (insNote ++ (creNoteLit ++ r))) hgt hD2'
      rw [← hD2] at h2
      omega

/-- Claim C4 as amended: the NoteFixer substitution is idempotent for every
input containing at most one occurrence of the literal token `note_type,` —
applying it a second time to its own output changes nothing, because the
inserted block breaks the required adjacency and creates no new token. -/
theorem noteSub_idem (s : List Char) (h : occurs noteTok s ≤ 1) :
    noteSub (noteSub s) = noteSub s := by
  cases hf : findNote s with
  | none => rw [noteSub_none hf, noteSub_none hf]
  | some q =>
    obtain ⟨p, g1, g2, r⟩ := q
    rcases findNote_sound hf with ⟨body, ws, hdec, hg1, hg2, _hbody, hws⟩
    have hA : s = (p ++ noteOpen ++ body) ++ (noteTok ++ (ws ++ (creNoteLit ++ r))) := by
      rw [hdec]; simp [List.append_assoc]
    have hocc0 : occurs noteTok r = 0 := by
      have hge := occurs_append_ge noteTok ((p ++ noteOpen ++ body) ++ (noteTok ++ (ws ++ creNoteLit))) r
      have he : ((p ++ noteOpen ++ body) ++ (noteTok ++ (ws ++ creNoteLit))) ++ r =
          (p ++ noteOpen ++ body) ++ (noteTok ++ (ws ++ (creNoteLit ++ r))) := by
        simp [List.append_assoc]
      rw [he, ← hA] at hge
      have hone : 1 ≤ occurs noteTok ((p ++ noteOpen ++ body) ++ (noteTok ++ (ws ++ creNoteLit))) :=
        occurs_ge_one noteTok noteTok_ne_nil (p ++ noteOpen ++ body) (ws ++ creNoteLit)
      omega
    have hfr : findNote r = none := by
      cases hfr' : findNote r with
      | none => rfl
      | some q' =>
        exfalso
        obtain ⟨p', g1', g2', r''⟩ := q'
        rcases findNote_sound hfr' with ⟨b', w', hd', _⟩
        have hr2 : r = (p' ++ noteOpen ++ b') ++ (noteTok ++ (w' ++ (creNoteLit ++ r''))) := by
          rw [hd']; simp [List.append_assoc]
        have := occurs_ge_one noteTok noteTok_ne_nil (p' ++ noteOpen ++ b')
          (w' ++ (creNoteLit ++ r''))
        rw [← hr2] at this
        omega
    have hsub : noteSub s = p ++ g1 ++ insNote ++ g2 ++ r := by
      rw [noteSub_some hf, noteSub_none hfr]
    have hout : p ++ g1 ++ insNote ++ g2 ++ r =
        (p ++ noteOpen ++ body) ++ (noteTok ++ (ws ++ (insNote ++ (creNoteLit ++ r)))) := by
      rw [hg1, hg2]; simp [List.append_assoc]
    have hocc' : occurs noteTok ((p ++ noteOpen ++ body) ++ (noteTok ++ (ws ++ (creNoteLit ++ r)))) ≤ 1 := by
      rw [← hA]; exact h
    have hfnone := noteOut_find_none (p ++ noteOpen ++ body) ws r hws hocc'
    rw [hsub, hout]
    exact noteSub_none hfnone

/-! RepoFixer analogues: no-crossing facts for `tags: ` and `created_at: `. -/

theorem tagsTok_ne_nil : tagsTok ≠ [] := by decide

theorem creTok_ne_nil : creTok ≠ [] := by decide

theorem tagsTok_drop_insRepo : ∀ k, k < tagsTok.length → 0 < k →
    pfxB (List.drop k tagsTok) insRepo = false := by decide

theorem tagsTok_drop_creTok : ∀ k, k < tagsTok.length → 0 < k →
    pfxB (List.drop k tagsTok) creTok = false := by decide

theorem creTok_drop_insRepo : ∀ k, k < creTok.length → 0 < k →
    pfxB (List.drop k creTok) insRepo = false := by decide

theorem creTok_drop_creTok : ∀ k, k < creTok.length → 0 < k →
    pfxB (List.drop k creTok) creTok = false := by decide

theorem tagsTok_nocross_ins (z : List Char) :
    ∀ k, 0 < k → k < tagsTok.length → pfxB (List.drop k tagsTok) (insRepo ++ z) = false := by
  intro k hk hk'
  refine pfxB_false_append (tagsTok_drop_insRepo k hk' hk) ?_
  have h1 : (List.drop k tagsTok).length ≤ tagsTok.length := by
    rw [List.length_drop]; omega
  have h2 : tagsTok.length ≤ insRepo.length := by decide
  omega

theorem tagsTok_nocross_cre (z : List Char) :
    ∀ k, 0 < k → k < tagsTok.length → pfxB (List.drop k tagsTok) (creTok ++ z) = false := by
  intro k hk hk'
  refine pfxB_false_append (tagsTok_drop_creTok k hk' hk) ?_
  have h1 : (List.drop k tagsTok).length ≤ tagsTok.length := by
    rw [List.length_drop]; omega
  have h2 : tagsTok.length ≤ creTok.length := by decide
  omega

theorem creTok_nocross_ins (z : List Char) :
    ∀ k, 0 < k → k < creTok.length → pfxB (List.drop k creTok) (insRepo ++ z) = false := by
  intro k hk hk'
  refine pfxB_false_append (creTok_drop_insRepo k hk' hk) ?_
  have h1 : (List.drop k creTok).length ≤ creTok.length := by
    rw [List.length_drop]; omega
  have h2 : creTok.length ≤ insRepo.length := by decide
  omega

theorem creTok_nocross_cre (z : List Char) :
    ∀ k, 0 < k → k < creTok.length → pfxB (List.drop k creTok) (creTok ++ z) = false := by
  intro k hk hk'
  refine pfxB_false_append (creTok_drop_creTok k hk' hk) ?_
  have h1 : (List.drop k creTok).length ≤ creTok.length := by
    rw [List.length_drop]; omega
  have h2 : creTok.length ≤ creTok.length := le_refl _
  omega

/-- Inserting `insRepo` between the matched group 1 and group 2 does not
increase the number of `tags: ` occurrences. -/
theorem occurs_tagsTok_out_le (X v2 r : List Char) :
    occurs tagsTok (X ++ (insRepo ++ (creTok ++ (v2 ++ ([','] ++ r))))) ≤
      occurs tagsTok (X ++ (creTok ++ (v2 ++ ([','] ++ r)))) := by
  have hle1 := occurs_append_le tagsTok tagsTok_ne_nil
    (insRepo ++ (creTok ++ (v2 ++ ([','] ++ r))))
    (fun k hk hk' => tagsTok_nocross_ins (creTok ++ (v2 ++ ([','] ++ r))) k hk hk') X
  have hle2 := occurs_append_le tagsTok tagsTok_ne_nil
    (creTok ++ (v2 ++ ([','] ++ r)))
    (fun k hk hk' => tagsTok_nocross_cre (v2 ++ ([','] ++ r)) k hk hk') insRepo
  have hz : occurs tagsTok insRepo = 0 := by decide
  have hge := occurs_append_ge tagsTok X (creTok ++ (v2 ++ ([','] ++ r)))
  omega

/-- Inserting `insRepo` between the matched group 1 and group 2 does not
increase the number of `created_at: ` occurrences. -/
theorem occurs_creTok_out_le (X v2 r : List Char) :
    occurs creTok (X ++ (insRepo ++ (creTok ++ (v2 ++ ([','] ++ r))))) ≤
      occurs creTok (X ++ (creTok ++ (v2 ++ ([','] ++ r)))) := by
  have hle1 := occurs_append_le creTok creTok_ne_nil
    (insRepo ++ (creTok ++ (v2 ++ ([','] ++ r))))
    (fun k hk hk' => creTok_nocross_ins (creTok ++ (v2 ++ ([','] ++ r))) k hk hk') X
  have hle2 := occurs_append_le creTok creTok_ne_nil
    (creTok ++ (v2 ++ ([','] ++ r)))
    (fun k hk hk' => creTok_nocross_cre (v2 ++ ([','] ++ r)) k hk hk') insRepo
  have hz : occurs creTok insRepo = 0 := by decide
  have hge := occurs_append_ge creTok X (creTok ++ (v2 ++ ([','] ++ r)))
  omega

/-! The bridge argument: the text standing between the matched `tags: ` token
and the `created_at: ` literal of a RepoFixer match always parses as
`[^,\n]*`, then an optional comma, then whitespace.  After patching, that
text ends with the inserted block, whose comma is followed by the non-blank
comment `// ...` — which no such parse can produce. -/

theorem comma_notin_of_notCommaNL {l : List Char} (h : ∀ c ∈ l, notCommaNL c = true) :
    ',' ∉ l := by
  intro hm
  have := h ',' hm
  simp [notCommaNL] at this

theorem comma_notin_of_space {l : List Char} (h : ∀ c ∈ l, isPySpace c = true) :
    ',' ∉ l := by
  intro hm
  have := h ',' hm
  simp [isPySpace] at this

/-- Splitting at a character that occurs in neither left part is unambiguous. -/
theorem split_unique_comma :
    ∀ (l₁ l₂ l₃ l₄ : List Char), l₁ ++ (',' :: l₂) = l₃ ++ (',' :: l₄) →
      ',' ∉ l₁ → ',' ∉ l₃ → l₁ = l₃ ∧ l₂ = l₄ := by
  intro l₁
  induction l₁ with
  | nil =>
    intro l₂ l₃ l₄ heq h₁ h₃
    cases l₃ with
    | nil =>
      rw [List.nil_append, List.nil_append] at heq
      exact ⟨rfl, (List.cons_eq_cons.mp heq).2⟩
    | cons d l₃' =>
      exfalso
      rw [List.nil_append, List.cons_append] at heq
      have hd : ',' = d := (List.cons_eq_cons.mp heq).1
      exact h₃ (hd ▸ List.mem_cons_self d l₃')
  | cons c l₁' ih =>
    intro l₂ l₃ l₄ heq h₁ h₃
    cases l₃ with
    | nil =>
      exfalso
      rw [List.nil_append, List.cons_append] at heq
      have hd : c = ',' := (List.cons_eq_cons.mp heq).1
      exact h₁ (hd ▸ List.mem_cons_self c l₁')
    | cons d l₃' =>
      rw [List.cons_append, List.cons_append] at heq
      have hcd : c = d := (List.cons_eq_cons.mp heq).1
      have htl := (List.cons_eq_cons.mp heq).2
      have h₁' : ',' ∉ l₁' := fun hm => h₁ (List.mem_cons_of_mem c hm)
      have h₃' : ',' ∉ l₃' := fun hm => h₃ (List.mem_cons_of_mem d hm)
      rcases ih l₂ l₃' l₄ htl h₁' h₃' with ⟨he, he₂⟩
      exact ⟨by rw [hcd, he], he₂⟩

/-- First half of the inserted block, before its comma. -/
def insRepoA : List Char := "project_ids: vec![]".data

/-- Second half of the inserted block, after its comma: the comment text,
the newline, and the 8 spaces.  It contains non-whitespace characters. -/
def insRepoB : List Char :=
  " // Empty by default - relationships managed separately\n".data ++ List.replicate 8 ' '

theorem insRepo_split : insRepo = insRepoA ++ (',' :: insRepoB) := by decide

theorem bridge_false (v1 copt ws v1' copt' ws' : List Char)
    (hv1 : ∀ c ∈ v1, notCommaNL c = true) (hcopt : copt = [] ∨ copt = [','])
    (hws : ∀ c ∈ ws, isPySpace c = true)
    (hv1' : ∀ c ∈ v1', notCommaNL c = true) (hcopt' : copt' = [] ∨ copt' = [','])
    (hws' : ∀ c ∈ ws', isPySpace c = true)
    (heq : v1 ++ (copt ++ (ws ++ insRepo)) = v1' ++ (copt' ++ ws')) : False := by
  have hc1 : List.count ',' v1 = 0 := List.count_eq_zero.mpr (comma_notin_of_notCommaNL hv1)
  have hc2 : List.count ',' ws = 0 := List.count_eq_zero.mpr (comma_notin_of_space hws)
  have hc1' : List.count ',' v1' = 0 := List.count_eq_zero.mpr (comma_notin_of_notCommaNL hv1')
  have hc2' : List.count ',' ws' = 0 := List.count_eq_zero.mpr (comma_notin_of_space hws')
  have hcins : List.count ',' insRepo = 1 := by decide
  have hcnt := congrArg (List.count ',') heq
  simp only [List.count_append] at hcnt
  have hcoptz : copt = [] := by
    rcases hcopt with h | h
    · exact h
    · exfalso
      rcases hcopt' with h' | h'
      · rw [h, h'] at hcnt
        simp [hc1, hc2, hc1', hc2', hcins] at hcnt
      · rw [h, h'] at hcnt
        simp [hc1, hc2, hc1', hc2', hcins] at hcnt
  have hcopto : copt' = [','] := by
    rcases hcopt' with h' | h'
    · exfalso
      rw [hcoptz, h'] at hcnt
      simp [hc1, hc2, hc1', hc2', hcins] at hcnt
    · exact h'
  rw [hcoptz, hcopto] at heq
  rw [List.nil_append] at heq
  rw [insRepo_split] at heq
  simp only [List.singleton_append] at heq
  have heq' : (v1 ++ (ws ++ insRepoA)) ++ (',' :: insRepoB) = v1' ++ (',' :: ws') := by
    rw [← heq]
    simp [List.append_assoc]
  have hnotin : ',' ∉ v1 ++ (ws ++ insRepoA) := by
    intro hm
    rcases List.mem_append.mp hm with hm1 | hm2
    · exact comma_notin_of_notCommaNL hv1 hm1
    · rcases List.mem_append.mp hm2 with hm3 | hm4
      · exact comma_notin_of_space hws hm3
      · exact absurd hm4 (by decide)
  have := split_unique_comma (v1 ++ (ws ++ insRepoA)) insRepoB v1' ws' heq' hnotin
    (comma_notin_of_notCommaNL hv1')
  have hwsB : insRepoB = ws' := this.2
  have hslash : '/' ∈ insRepoB := by decide
  rw [hwsB] at hslash
  have := hws' '/' hslash
  simp [isPySpace] at this

/-- Core of the corrected RepoFixer idempotence: if the input had at most one
occurrence of `tags: ` and at most one of `created_at: `, the patched text,
in which the inserted block separates them, has no match at all. -/
theorem repoOut_find_none (A v1 copt ws v2 r : List Char)
    (hv1 : ∀ c ∈ v1, notCommaNL c = true)
    (hcopt : copt = [] ∨ copt = [','])
    (hws : ∀ c ∈ ws, isPySpace c = true)
    (ht : occurs tagsTok
      (A ++ (tagsTok ++ (v1 ++ (copt ++ (ws ++ (creTok ++ (v2 ++ ([','] ++ r)))))))) ≤ 1)
    (hc : occurs creTok
      (A ++ (tagsTok ++ (v1 ++ (copt ++ (ws ++ (creTok ++ (v2 ++ ([','] ++ r)))))))) ≤ 1) :
    findRepo
      (A ++ (tagsTok ++ (v1 ++ (copt ++ (ws ++ (insRepo ++ (creTok ++ (v2 ++ ([','] ++ r)))))))))
      = none := by
  cases hf : findRepo
      (A ++ (tagsTok ++ (v1 ++ (copt ++ (ws ++ (insRepo ++ (creTok ++ (v2 ++ ([','] ++ r))))))))) with
  | none => rfl
  | some q =>
    exfalso
    obtain ⟨p, g1, g2, r'⟩ := q
    rcases findRepo_sound hf with
      ⟨body', v1', copt', ws', v2', hdec, _hg1, _hg2, _hbody', hv1', hcopt', hws', _hv2'⟩
    have htout : occurs tagsTok
        (A ++ (tagsTok ++ (v1 ++ (copt ++ (ws ++ (insRepo ++ (creTok ++ (v2 ++ ([','] ++ r))))))))) ≤ 1 := by
      have h1 := occurs_tagsTok_out_le (A ++ tagsTok ++ v1 ++ copt ++ ws) v2 r
      have e1 : (A ++ tagsTok ++ v1 ++ copt ++ ws) ++ (insRepo ++ (creTok ++ (v2 ++ ([','] ++ r)))) =
          A ++ (tagsTok ++ (v1 ++ (copt ++ (ws ++ (insRepo ++ (creTok ++ (v2 ++ ([','] ++ r)))))))) := by
        simp [List.append_assoc]
      have e2 : (A ++ tagsTok ++ v1 ++ copt ++ ws) ++ (creTok ++ (v2 ++ ([','] ++ r))) =
          A ++ (tagsTok ++ (v1 ++ (copt ++ (ws ++ (creTok ++ (v2 ++ ([','] ++ r))))))) := by
        simp [List.append_assoc]
      rw [e1, e2] at h1
      omega
    have hcout : occurs creTok
        (A ++ (tagsTok ++ (v1 ++ (copt ++ (ws ++ (insRepo ++ (creTok ++ (v2 ++ ([','] ++ r))))))))) ≤ 1 := by
      have h1 := occurs_creTok_out_le (A ++ tagsTok ++ v1 ++ copt ++ ws) v2 r
      have e1 : (A ++ tagsTok ++ v1 ++ copt ++ ws) ++ (insRepo ++ (creTok ++ (v2 ++ ([','] ++ r)))) =
          A ++ (tagsTok ++ (v1 ++ (copt ++ (ws ++ (insRepo ++ (creTok ++ (v2 ++ ([','] ++ r)))))))) := by
        simp [List.append_assoc]
      have e2 : (A ++ tagsTok ++ v1 ++ copt ++ ws) ++ (creTok ++ (v2 ++ ([','] ++ r))) =
          A ++ (tagsTok ++ (v1 ++ (copt ++ (ws ++ (creTok ++ (v2 ++ ([','] ++ r))))))) := by
        simp [List.append_assoc]
      rw [e1, e2] at h1
      omega
    have hD2 : A ++ (tagsTok ++ (v1 ++ (copt ++ (ws ++ (insRepo ++ (creTok ++ (v2 ++ ([','] ++ r)))))))) =
        (p ++ repoOpen ++ body') ++
          (tagsTok ++ (v1' ++ (copt' ++ (ws' ++ (creTok ++ (v2' ++ ([','] ++ r'))))))) := by
      rw [hdec]
      simp [List.append_assoc]
    have hAA : A = p ++ repoOpen ++ body' := by
      rcases lt_trichotomy A.length (p ++ repoOpen ++ body').length with hlt | heqL | hgt
      · exfalso
        have h2 := occurs_two tagsTok tagsTok_ne_nil A
          (v1 ++ (copt ++ (ws ++ (insRepo ++ (creTok ++ (v2 ++ ([','] ++ r)))))))
          (p ++ repoOpen ++ body')
          (v1' ++ (copt' ++ (ws' ++ (creTok ++ (v2' ++ ([','] ++ r')))))) hlt hD2
        omega
      · exact (List.append_inj hD2 heqL).1
      · exfalso
        have h2 := occurs_two tagsTok tagsTok_ne_nil (p ++ repoOpen ++ body')
          (v1' ++ (copt' ++ (ws' ++ (creTok ++ (v2' ++ ([','] ++ r'))))))
          A (v1 ++ (copt ++ (ws ++ (insRepo ++ (creTok ++ (v2 ++ ([','] ++ r))))))) hgt hD2.symm
        rw [← hD2] at h2
        omega
    have hD3 : A ++ (tagsTok ++ (v1 ++ (copt ++ (ws ++ (insRepo ++ (creTok ++ (v2 ++ ([','] ++ r)))))))) =
        (A ++ (tagsTok ++ (v1 ++ (copt ++ (ws ++ insRepo))))) ++ (creTok ++ (v2 ++ ([','] ++ r))) := by
      simp [List.append_assoc]
    have hD4 : A ++ (tagsTok ++ (v1 ++ (copt ++ (ws ++ (insRepo ++ (creTok ++ (v2 ++ ([','] ++ r)))))))) =
        (A ++ (tagsTok ++ (v1' ++ (copt' ++ ws')))) ++ (creTok ++ (v2' ++ ([','] ++ r'))) := by
      rw [hdec, hAA]
      simp [List.append_assoc]
    have hD34 : (A ++ (tagsTok ++ (v1 ++ (copt ++ (ws ++ insRepo))))) ++ (creTok ++ (v2 ++ ([','] ++ r))) =
        (A ++ (tagsTok ++ (v1' ++ (copt' ++ ws')))) ++ (creTok ++ (v2' ++ ([','] ++ r'))) := by
      rw [← hD3, hD4]
    have hBB : A ++ (tagsTok ++ (v1 ++ (copt ++ (ws ++ insRepo)))) =
        A ++ (tagsTok ++ (v1' ++ (copt' ++ ws'))) := by
      rcases lt_trichotomy (A ++ (tagsTok ++ (v1 ++ (copt ++ (ws ++ insRepo))))).length
          (A ++ (tagsTok ++ (v1' ++ (copt' ++ ws')))).length with hlt | heqL | hgt
      · exfalso
        have h2 := occurs_two creTok creTok_ne_nil
          (A ++ (tagsTok ++ (v1 ++ (copt ++ (ws ++ insRepo))))) (v2 ++ ([','] ++ r))
          (A ++ (tagsTok ++ (v1' ++ (copt' ++ ws')))) (v2' ++ ([','] ++ r')) hlt hD34
        rw [← hD3] at h2
        omega
      · exact (List.append_inj hD34 heqL).1
      · exfalso
        have h2 := occurs_two creTok creTok_ne_nil
          (A ++ (tagsTok ++ (v1' ++ (copt' ++ ws')))) (v2' ++ ([','] ++ r'))
          (A ++ (tagsTok ++ (v1 ++ (copt ++ (ws ++ insRepo))))) (v2 ++ ([','] ++ r)) hgt hD34.symm
        rw [← hD34, ← hD3] at h2
        omega
    have h5 := List.append_cancel_left hBB
    have h6 := List.append_cancel_left h5
    exact bridge_false v1 copt ws v1' copt' ws' hv1 hcopt hws hv1' hcopt' hws' h6

/-- Claim C10 as amended: the RepoFixer substitution is idempotent for every
input containing at most one occurrence of `tags: ` and at most one
occurrence of `created_at: ` — applying it a second time to its own output
changes nothing, because the inserted block breaks the required adjacency
and creates no new token. -/
theorem repoSub_idem (s : List Char) (h1 : occurs tagsTok s ≤ 1)
    (h2 : occurs creTok s ≤ 1) : repoSub (repoSub s) = repoSub s := by
  cases hf : findRepo s with
  | none => rw [repoSub_none hf, repoSub_none hf]
  | some q =>
    obtain ⟨p, g1, g2, r⟩ := q
    rcases findRepo_sound hf with
      ⟨body, v1, copt, ws, v2, hdec, hg1, hg2, _hbody, hv1, hcopt, hws, _hv2⟩
    have hA : s = (p ++ repoOpen ++ body) ++
        (tagsTok ++ (v1 ++ (copt ++ (ws ++ (creTok ++ (v2 ++ ([','] ++ r))))))) := by
      rw [hdec]; simp [List.append_assoc]
    have hocc0 : occurs tagsTok r = 0 := by
      have hge := occurs_append_ge tagsTok
        ((p ++ repoOpen ++ body) ++ (tagsTok ++ (v1 ++ (copt ++ (ws ++ (creTok ++ (v2 ++ [','])))))))
        r
      have he : ((p ++ repoOpen ++ body) ++
          (tagsTok ++ (v1 ++ (copt ++ (ws ++ (creTok ++ (v2 ++ [',']))))))) ++ r = s := by
        rw [hA]; simp [List.append_assoc]
      rw [he] at hge
      have hone := occurs_ge_one tagsTok tagsTok_ne_nil (p ++ repoOpen ++ body)
        (v1 ++ (copt ++ (ws ++ (creTok ++ (v2 ++ [','])))))
      omega
    have hfr : findRepo r = none := by
      cases hfr' : findRepo r with
      | none => rfl
      | some q' =>
        exfalso
        obtain ⟨p', g1', g2', r''⟩ := q'
        rcases findRepo_sound hfr' with ⟨b', w1', c', w2', w3', hd', _⟩
        have hr2 : r = (p' ++ repoOpen ++ b') ++
            (tagsTok ++ (w1' ++ (c' ++ (w2' ++ (creTok ++ (w3' ++ ([','] ++ r''))))))) := by
          rw [hd']; simp [List.append_assoc]
        have := occurs_ge_one tagsTok tagsTok_ne_nil (p' ++ repoOpen ++ b')
          (w1' ++ (c' ++ (w2' ++ (creTok ++ (w3' ++ ([','] ++ r''))))))
        rw [← hr2] at this
        omega
    have hsub : repoSub s = p ++ g1 ++ insRepo ++ g2 ++ r := by
      rw [repoSub_some hf, repoSub_none hfr]
    have hout : p ++ g1 ++ insRepo ++ g2 ++ r =
        (p ++ repoOpen ++ body) ++
          (tagsTok ++ (v1 ++ (copt ++ (ws ++ (insRepo ++ (creTok ++ (v2 ++ ([','] ++ r)))))))) := by
      rw [hg1, hg2]; simp [List.append_assoc]
    have hts : occurs tagsTok ((p ++ repoOpen ++ body) ++
        (tagsTok ++ (v1 ++ (copt ++ (ws ++ (creTok ++ (v2 ++ ([','] ++ r)))))))) ≤ 1 := by
      rw [← hA]; exact h1
    have hcs : occurs creTok ((p ++ repoOpen ++ body) ++
        (tagsTok ++ (v1 ++ (copt ++ (ws ++ (creTok ++ (v2 ++ ([','] ++ r)))))))) ≤ 1 := by
      rw [← hA]; exact h2
    have hfnone := repoOut_find_none (p ++ repoOpen ++ body) v1 copt ws v2 r hv1 hcopt hws hts hcs
    rw [hsub, hout]
    exact repoSub_none hfnone

/-! Completeness on the canonical shape: any text `Note {` ++ body ++
`note_type,` ++ group-2 literal with a brace-free body does match. -/

theorem matchNote_shape (body : List Char) (hb : ∀ c ∈ body, notBrace c = true) :
    matchNoteAt (noteOpen ++ (body ++ (noteTok ++ creNoteLit))) ≠ none := by
  unfold matchNoteAt
  rw [stripPfx_append]
  dsimp only
  have ht : List.takeWhile notBrace (body ++ (noteTok ++ creNoteLit)) =
      body ++ (noteTok ++ creNoteLit) := by
    rw [takeWhile_append_all hb]
    rw [show List.takeWhile notBrace (noteTok ++ creNoteLit) = noteTok ++ creNoteLit from by decide]
  have hd : List.dropWhile notBrace (body ++ (noteTok ++ creNoteLit)) = [] := by
    rw [dropWhile_append_all hb]
    decide
  rw [ht, hd]
  cases hg : greedyBt noteTail (body ++ (noteTok ++ creNoteLit)).reverse [] [] with
  | none =>
    exfalso
    have h2 := greedyBt_none noteTail _ _ _ hg body (noteTok ++ creNoteLit)
      (by rw [List.reverse_reverse])
    simp only [List.append_nil] at h2
    have h3 : noteTail (noteTok ++ creNoteLit) = some ([], []) := by decide
    rw [h3] at h2
    exact Option.noConfusion h2
  | some q =>
    obtain ⟨a, b, c⟩ := q
    simp

theorem findNote_shape_ne_none (body : List Char) (hb : ∀ c ∈ body, notBrace c = true) :
    findNote (noteOpen ++ (body ++ (noteTok ++ creNoteLit))) ≠ none := by
  intro hnone
  rcases Option.ne_none_iff_exists'.mp (matchNote_shape body hb) with ⟨x, hx⟩
  obtain ⟨g1, g2, r⟩ := x
  have := findAt_of_match hx
  unfold findNote at hnone
  rw [this] at hnone
  exact Option.noConfusion hnone

/-! A model of the surrounding scripts: the file system is a map from paths
to optional text contents; each script reads, substitutes and writes as the
source does. -/

/-- File-system model: a path either holds a text or does not exist. -/
def Fs : Type := String → Option (List Char)

/-- Writing one file. -/
def fsUpdate (fs : Fs) (p : String) (c : List Char) : Fs :=
  fun q => if q = p then some c else fs q

/-- The fixed path fix_note.py opens for reading and writing. -/
def note_rs_path : String := "src/db/sqlite/note.rs"

/-- The fixed candidate list `files_to_fix` of fix_repo.py, in source order. -/
def files_to_fix : List String :=
  ["src/db/sqlite/repo_test.rs", "src/db/sqlite/critical_tests.rs"]

/-- One run of fix_note.py: read the file (propagating failure, as the
script does, when it is missing), substitute, and write back unconditionally.
The Bool records that a write was performed — it is always true on success
because the script writes even when nothing matched. -/
def noteFixerRun (fs : Fs) : Option (Fs × Bool) :=
  match fs note_rs_path with
  | none => none
  | some content => some (fsUpdate fs note_rs_path (noteSub content), true)

/-- The three console statuses fix_repo.py can report for a path. -/
inductive RepoStatus : Type where
  | fixed : String → RepoStatus
  | noChanges : String → RepoStatus
  | notFound : String → RepoStatus
deriving DecidableEq

/-- The content-level behaviour of `fix_repo_constructors`: the substituted
text, and whether the script writes it back (exactly when it differs). -/
def fix_repo_constructors (content : List Char) : List Char × Bool :=
  if repoSub content = content then (content, false) else (repoSub content, true)

/-- Processing of one candidate path by the fix_repo.py main loop:
a missing file is reported and skipped, an existing one is substituted and
written back only when changed. -/
def repoStep (fs : Fs) (p : String) : RepoStatus × Fs :=
  match fs p with
  | none => (RepoStatus.notFound p, fs)
  | some content =>
    let nc := fix_repo_constructors content
    if nc.2 then (RepoStatus.fixed p, fsUpdate fs p nc.1) else (RepoStatus.noChanges p, fs)

/-- The `for file_path in files_to_fix` loop. -/
def repoFixerLoop : List String → Fs → List RepoStatus × Fs
  | [], fs => ([], fs)
  | p :: ps, fs =>
    let st := repoStep fs p
    let rest := repoFixerLoop ps st.2
    (st.1 :: rest.1, rest.2)

/-- The whole run of fix_repo.py. -/
def repoFixerRun (fs : Fs) : List RepoStatus × Fs := repoFixerLoop files_to_fix fs

/-- The status fix_repo.py reports for a path, as a function of the file
system it processes that path against. -/
def repoStatusFor (fs : Fs) (p : String) : RepoStatus :=
  match fs p with
  | none => RepoStatus.notFound p
  | some content =>
    if repoSub content = content then RepoStatus.noChanges p else RepoStatus.fixed p

theorem repoStep_status (fs : Fs) (p : String) : (repoStep fs p).1 = repoStatusFor fs p := by
  unfold repoStep repoStatusFor fix_repo_constructors
  cases h : fs p with
  | none => rfl
  | some content =>
    by_cases hc : repoSub content = content
    · simp [hc]
    · simp [hc]

theorem repoStep_fs_frame (fs : Fs) (p q : String) (h : q ≠ p) :
    (repoStep fs p).2 q = fs q := by
  unfold repoStep fix_repo_constructors
  cases hf : fs p with
  | none => rfl
  | some content =>
    by_cases hc : repoSub content = content
    · simp [hc]
    · simp [hc, fsUpdate, h]

theorem repoStatusFor_congr {fs₁ fs₂ : Fs} (p : String) (h : fs₁ p = fs₂ p) :
    repoStatusFor fs₁ p = repoStatusFor fs₂ p := by
  unfold repoStatusFor
  rw [h]

theorem repoLoop_frame : ∀ (ps : List String) (fs : Fs) (q : String), q ∉ ps →
    (repoFixerLoop ps fs).2 q = fs q := by
  intro ps
  induction ps with
  | nil => intro fs q _; rfl
  | cons p ps ih =>
    intro fs q hq
    have hqp : q ≠ p := fun he => hq (he ▸ List.mem_cons_self p ps)
    have hqs : q ∉ ps := fun hm => hq (List.mem_cons_of_mem p hm)
    unfold repoFixerLoop
    rw [ih (repoStep fs p).2 q hqs, repoStep_fs_frame fs p q hqp]

/-! Concrete texts used by the claim counterexamples and witnesses. -/

/-- A Note construction in field-shorthand form: the pattern matches it. -/
def c1wit : List Char := "Note \x7b id: 1, note_type, created_at: row.get(\"created_at\"), \x7d".data

/-- Group 1 of the match inside `c1wit`. -/
def c1g1 : List Char := "Note \x7b id: 1, note_type, ".data

/-- The text after the match inside `c1wit`. -/
def c1rest : List Char := " \x7d".data

/-- The end-to-end example fragment given by the specification: its
`note_type` field carries an explicit value, so the literal token
`note_type,` does not occur in it. -/
def c2input : List Char := "Note \x7b id: 1, note_type: NoteType::Text, created_at: row.get(\"created_at\"), \x7d".data

/-- What NoteFixer actually produces on the shorthand fragment `c1wit`. -/
def c2shortOut : List Char := "Note \x7b id: 1, note_type, project_ids: vec![], // Empty by default - relationships managed separately\n                    created_at: row.get(\"created_at\"), \x7d".data

/-- A Note construction containing two `note_type,`-to-`created_at`
adjacencies; the greedy match spans to the second one. -/
def c4ex : List Char := "Note \x7b note_type, created_at: row.get(\"created_at\"), note_type, created_at: row.get(\"created_at\"),".data

/-- A Note construction with a single `note_type,` token. -/
def c4w : List Char := "Note \x7b note_type, created_at: row.get(\"created_at\"), \x7d".data

/-- A Repo construction containing two `tags:`-to-`created_at:` adjacencies;
the greedy match spans to the second one. -/
def c10ex : List Char := "Repo \x7b tags: x, created_at: y, tags: x, created_at: y,".data

/-- A Repo construction with a single `tags: ` and a single `created_at: `. -/
def c10w : List Char := "Repo \x7b tags: x, created_at: y, \x7d".data

/-- A file system whose every path holds the text `hello`. -/
def fsA : Fs := fun _ => some ("hello".data)

/-- A file system where only the first RepoFixer candidate exists. -/
def fsMixed : Fs := fun q =>
  if q = "src/db/sqlite/repo_test.rs" then some ("Repo \x7b tags: x, created_at: y, \x7d".data) else none

/-- A file system whose every path holds the text `x`. -/
def fsAll : Fs := fun _ => some ("x".data)

/-! The claims. -/

/-- Claim C1: for every input in which the NoteFixer pattern occurs exactly
once (a match is found, and no further match exists after it), the
substitution output is the input with exactly the `project_ids` field and
its explanatory comment inserted directly before the matched `created_at`
assignment; every character of the original input is preserved in order. -/
theorem claim1_note_single_match (s p g1 g2 r : List Char)
    (h : findNote s = some (p, g1, g2, r)) (hr : findNote r = none) :
    s = p ++ g1 ++ g2 ++ r ∧ noteSub s = p ++ g1 ++ insNote ++ g2 ++ r ∧
    g2 = creNoteLit ∧
    ∃ body ws, g1 = noteOpen ++ body ++ noteTok ++ ws ∧ ∀ c ∈ ws, isPySpace c = true := by
  rcases findNote_sound h with ⟨body, ws, hdec, hg1, hg2, _hb, hws⟩
  refine ⟨?_, ?_, hg2, body, ws, hg1, hws⟩
  · rw [hdec, hg1, hg2]
    simp [List.append_assoc]
  · rw [noteSub_some h, noteSub_none hr]

/-- Witness for C1 at the concrete shorthand fragment `c1wit`. -/
theorem claim1_witness :
    c1wit = [] ++ c1g1 ++ creNoteLit ++ c1rest ∧
    noteSub c1wit = [] ++ c1g1 ++ insNote ++ creNoteLit ++ c1rest := by
  have h := claim1_note_single_match c1wit [] c1g1 creNoteLit c1rest (by decide) (by decide)
  exact ⟨h.1, h.2.1⟩

/-- Counterexample to claim C2: on the end-to-end example of the specification
fragment the substitution inserts nothing at all — the fragment is returned
unchanged and contains no `project_ids` field — because the literal token
`note_type,` does not occur in `note_type: NoteType::Text,`. -/
theorem claim2_example_unchanged :
    noteSub c2input = c2input ∧ occurs ("project_ids".data) c2input = 0 := by
  constructor
  · decide
  · decide

/-- Claim C2 as amended: the substitution leaves the example
fragment unchanged (the token `note_type,` does not occur in it); on the
shorthand variant `Note { id: 1, note_type, created_at: ... }` it does
insert the `project_ids` field with its comment, a newline and 20 spaces
before the `created_at` assignment. -/
theorem claim2_amended :
    noteSub c2input = c2input ∧ noteSub c1wit = c2shortOut := by
  constructor
  · decide
  · decide

/-- Counterexample to claim C3: the span between `Note {` and `note_type,`
may not contain every character — a closing brace `}` inside it blocks the
match (the character class is `[^}]`, not `.`), so this input is returned
unchanged even though `Note {`, `note_type,` and the `created_at` fragment
all occur in order. -/
theorem claim3_brace_blocks_match :
    findNote (noteOpen ++ ("a\x7db".data ++ (noteTok ++ creNoteLit))) = none ∧
    noteSub (noteOpen ++ ("a\x7db".data ++ (noteTok ++ creNoteLit))) =
      noteOpen ++ ("a\x7db".data ++ (noteTok ++ creNoteLit)) := by
  constructor
  · decide
  · decide

/-- Claim C3 as amended: the matched span between `Note {` and `note_type,`
may contain any character other than `}` — newlines included, since `[^}]`
itself matches newlines (the DOTALL flag is set but the pattern contains no
dot).  Any text of that shape with a brace-free span matches; in particular
a span containing newlines does. -/
theorem claim3_amended :
    (∀ body, (∀ c ∈ body, notBrace c = true) →
      findNote (noteOpen ++ (body ++ (noteTok ++ creNoteLit))) ≠ none) ∧
    findNote (noteOpen ++ ("a\nb\nc".data ++ (noteTok ++ creNoteLit))) ≠ none := by
  refine ⟨fun body hb => findNote_shape_ne_none body hb, ?_⟩
  exact findNote_shape_ne_none ("a\nb\nc".data) (by decide)

/-- Witness for C3 at a concrete multi-line brace-free span. -/
theorem claim3_witness :
    findNote (noteOpen ++ (("x y\nz".data) ++ (noteTok ++ creNoteLit))) ≠ none :=
  claim3_amended.1 ("x y\nz".data) (by decide)

/-- Counterexample to claim C4: the NoteFixer substitution is not idempotent.
On a construction with two `note_type,`-to-`created_at` adjacencies, the
first application patches only the second (greedy-longest) adjacency; the
second application then matches the first adjacency and inserts a second
`project_ids` field. -/
theorem claim4_not_idempotent :
    noteSub (noteSub c4ex) ≠ noteSub c4ex ∧
    occurs ("project_ids".data) (noteSub c4ex) = 1 ∧
    occurs ("project_ids".data) (noteSub (noteSub c4ex)) = 2 := by
  refine ⟨by decide, by decide, by decide⟩

/-- Witness for C4 (amended, `noteSub_idem`) at a concrete input with a
single `note_type,` token. -/
theorem claim4_witness :
    occurs noteTok c4w ≤ 1 ∧ noteSub (noteSub c4w) = noteSub c4w :=
  ⟨by decide, noteSub_idem c4w (by decide)⟩

/-- Claim C5: round-trip on unmatched content.  For every content matched by
neither pattern, the NoteFixer substitution and the RepoFixer substitution both
return the content unchanged; NoteFixer still performs its (unconditional)
write, writing identical bytes, while RepoFixer performs no write at all and
reports that no changes were needed. -/
theorem claim5_roundtrip (content : List Char)
    (hn : findNote content = none) (hr : findRepo content = none) :
    noteSub content = content ∧
    fix_repo_constructors content = (content, false) ∧
    (∀ fs : Fs, fs note_rs_path = some content →
      noteFixerRun fs = some (fsUpdate fs note_rs_path content, true)) ∧
    (∀ (fs : Fs) (p : String), fs p = some content →
      repoStep fs p = (RepoStatus.noChanges p, fs)) := by
  have h1 := noteSub_none hn
  have h2 := repoSub_none hr
  have hfix : fix_repo_constructors content = (content, false) := by
    unfold fix_repo_constructors
    rw [if_pos h2]
  refine ⟨h1, hfix, ?_, ?_⟩
  · intro fs hfs
    unfold noteFixerRun
    rw [hfs]
    dsimp only
    rw [h1]
  · intro fs p hfs
    unfold repoStep
    rw [hfs]
    dsimp only
    rw [hfix]
    simp

/-- Witness for C5 at the concrete unmatched content `hello`. -/
theorem claim5_witness :
    noteSub ("hello".data) = "hello".data ∧
    fix_repo_constructors ("hello".data) = ("hello".data, false) := by
  have h := claim5_roundtrip ("hello".data) (by decide) (by decide)
  exact ⟨h.1, h.2.1⟩

/-- Claim C6: RepoFixer conditional-write discipline.  A write happens if
and only if the substituted content differs from the original; when the
content has no match (in particular, no `tags:`-to-`created_at:` adjacency)
the file is not written, the file system is untouched, and the status
"No changes needed" is reported. -/
theorem claim6_conditional_write (fs : Fs) (p : String) (content : List Char)
    (hfs : fs p = some content) :
    ((fix_repo_constructors content).2 = true ↔ repoSub content ≠ content) ∧
    (findRepo content = none →
      fix_repo_constructors content = (content, false) ∧
      repoStep fs p = (RepoStatus.noChanges p, fs)) := by
  constructor
  · unfold fix_repo_constructors
    by_cases hc : repoSub content = content
    · simp [hc]
    · simp [hc]
  · intro hr
    have h2 := repoSub_none hr
    have hfix : fix_repo_constructors content = (content, false) := by
      unfold fix_repo_constructors
      rw [if_pos h2]
    refine ⟨hfix, ?_⟩
    unfold repoStep
    rw [hfs]
    dsimp only
    rw [hfix]
    simp

/-- Witness for C6 at the concrete unmatched content `hello`. -/
theorem claim6_witness : repoStep fsA "a" = (RepoStatus.noChanges "a", fsA) :=
  ((claim6_conditional_write fsA "a" ("hello".data) rfl).2 (by decide)).2

/-- Claim C7: the RepoFixer run reports, for each of its two candidate paths in
order, "not found" when the path does not exist (skipping it without any
failure — the model run is total), and otherwise "fixed" or "no changes
needed" according to whether the content matched the pattern. -/
theorem claim7_statuses (fs : Fs) :
    (repoFixerRun fs).1 =
      [repoStatusFor fs "src/db/sqlite/repo_test.rs",
       repoStatusFor fs "src/db/sqlite/critical_tests.rs"] ∧
    (∀ p, fs p = none → repoStatusFor fs p = RepoStatus.notFound p) ∧
    (∀ p content, fs p = some content →
      repoStatusFor fs p =
        if findRepo content = none then RepoStatus.noChanges p else RepoStatus.fixed p) := by
  refine ⟨?_, ?_, ?_⟩
  · have e0 := repoStep_status fs "src/db/sqlite/repo_test.rs"
    have e1 := repoStep_status (repoStep fs "src/db/sqlite/repo_test.rs").2
      "src/db/sqlite/critical_tests.rs"
    have e2 : (repoStep fs "src/db/sqlite/repo_test.rs").2 "src/db/sqlite/critical_tests.rs" =
        fs "src/db/sqlite/critical_tests.rs" :=
      repoStep_fs_frame fs "src/db/sqlite/repo_test.rs" "src/db/sqlite/critical_tests.rs"
        (by decide)
    have hlist : (repoFixerRun fs).1 =
        [(repoStep fs "src/db/sqlite/repo_test.rs").1,
         (repoStep (repoStep fs "src/db/sqlite/repo_test.rs").2 "src/db/sqlite/critical_tests.rs").1] :=
      rfl
    rw [hlist, e0, e1, repoStatusFor_congr "src/db/sqlite/critical_tests.rs" e2]
  · intro p hp
    unfold repoStatusFor
    rw [hp]
  · intro p content hp
    unfold repoStatusFor
    rw [hp]
    dsimp only
    simp only [repoSub_eq_iff]

/-- Witness for C7: with only the first candidate present (holding a matching
Repo construction), the run reports it fixed and the second not found. -/
theorem claim7_witness :
    (repoFixerRun fsMixed).1 =
      [RepoStatus.fixed "src/db/sqlite/repo_test.rs",
       RepoStatus.notFound "src/db/sqlite/critical_tests.rs"] := by
  rw [(claim7_statuses fsMixed).1]
  decide

/-- Claim C8: both utilities operate only on fixed hardcoded relative paths —
NoteFixer reads and writes exactly `src/db/sqlite/note.rs`, RepoFixer
iterates exactly its two-element list in order, and neither run touches any
other path of the file system. -/
theorem claim8_paths :
    note_rs_path = "src/db/sqlite/note.rs" ∧
    files_to_fix = ["src/db/sqlite/repo_test.rs", "src/db/sqlite/critical_tests.rs"] ∧
    (∀ (fs fs' : Fs) (b : Bool) (q : String), noteFixerRun fs = some (fs', b) →
      q ≠ note_rs_path → fs' q = fs q) ∧
    (∀ (fs : Fs) (q : String), q ∉ files_to_fix → (repoFixerRun fs).2 q = fs q) := by
  refine ⟨rfl, rfl, ?_, ?_⟩
  · intro fs fs' b q hrun hq
    unfold noteFixerRun at hrun
    cases hf : fs note_rs_path with
    | none => rw [hf] at hrun; exact absurd hrun (by simp)
    | some content =>
      rw [hf] at hrun
      simp only [Option.some.injEq, Prod.mk.injEq] at hrun
      rw [← hrun.1]
      unfold fsUpdate
      rw [if_neg hq]
  · intro fs q hq
    exact repoLoop_frame files_to_fix fs q hq

/-- Witness for C8: the note run leaves a foreign path untouched, and so does
the repo run. -/
theorem claim8_witness :
    fsUpdate fsAll note_rs_path (noteSub ("x".data)) "other" = fsAll "other" ∧
    (repoFixerRun fsAll).2 "other" = fsAll "other" := by
  constructor
  · exact claim8_paths.2.2.1 fsAll (fsUpdate fsAll note_rs_path (noteSub ("x".data))) true
      "other" rfl (by decide)
  · exact claim8_paths.2.2.2 fsAll "other" (by decide)

/-- Claim C9 (implicit): the newline and indentation inserted between the new
`project_ids` field and the preserved `created_at` assignment are fixed
literal strings — the comment line then exactly 20 spaces in NoteFixer, and
the comment line then exactly 8 spaces in RepoFixer — independent of the
indentation the original file had at the match site: every substitution inserts
the same constant block. -/
theorem claim9_insertion_constants :
    insNote = insComment ++ List.replicate 20 ' ' ∧
    insRepo = insComment ++ List.replicate 8 ' ' ∧
    insComment =
      "project_ids: vec![], // Empty by default - relationships managed separately\n".data ∧
    (∀ s p g1 g2 r, findNote s = some (p, g1, g2, r) →
      noteSub s = p ++ g1 ++ insNote ++ g2 ++ noteSub r) ∧
    (∀ s p g1 g2 r, findRepo s = some (p, g1, g2, r) →
      repoSub s = p ++ g1 ++ insRepo ++ g2 ++ repoSub r) :=
  ⟨rfl, rfl, rfl, fun _ _ _ _ _ h => noteSub_some h, fun _ _ _ _ _ h => repoSub_some h⟩

/-- Witness for C9 at the concrete fragment `c1wit`. -/
theorem claim9_witness :
    noteSub c1wit = [] ++ c1g1 ++ insNote ++ creNoteLit ++ noteSub c1rest :=
  claim9_insertion_constants.2.2.2.1 c1wit [] c1g1 creNoteLit c1rest (by decide)

/-- Counterexample to claim C10: the RepoFixer substitution is not idempotent.
On a construction with two `tags:`-to-`created_at:` adjacencies, the first
application patches only the second (greedy-longest) adjacency; the second
application then matches the first adjacency and inserts a second
`project_ids` field. -/
theorem claim10_not_idempotent :
    repoSub (repoSub c10ex) ≠ repoSub c10ex ∧
    occurs ("project_ids".data) (repoSub c10ex) = 1 ∧
    occurs ("project_ids".data) (repoSub (repoSub c10ex)) = 2 := by
  refine ⟨by decide, by decide, by decide⟩

/-- Witness for C10 (amended, `repoSub_idem`) at a concrete input with a
single `tags: ` and a single `created_at: ` token. -/
theorem claim10_witness :
    occurs tagsTok c10w ≤ 1 ∧ occurs creTok c10w ≤ 1 ∧
    repoSub (repoSub c10w) = repoSub c10w :=
  ⟨by decide, by decide, repoSub_idem c10w (by decide) (by decide)⟩
